import Mathlib

/-!
Verification of the in-memory Unix-filesystem simulator (`src/unix.c`,
`src/unix-datastructure.h`).

The C code keeps a tree of `Container` nodes.  Each directory's children form
a doubly linked list sorted by name (`next`/`prev`); the root's own
`next`-chain doubles as the top-level children list, and a directory's
children hang off `sub_dir`.  `Unix` holds the `root` pointer and the
`curr_dir` cursor pointer.

The shallow embedding below represents that pointer structure by its
functional contents:
  * a `Container` carries its `name`, its `type` tag, and `sub_dir`, the
    children list in stored (`next`-chain) order — for the root node the list
    models the root's `next` sibling chain, for a directory it models the
    `sub_dir` chain;
  * `parent` and `prev` pointers are determined by the tree shape and are not
    stored; the cursor `curr_dir` is represented by the path of names from
    the root to the cursor node (the root being path `[]`);
  * pointer-level effects that this representation cannot express (the
    partially linked node left behind by a failed allocation inside
    `add_container_to_filesystem`) are modelled separately by an explicit
    heap embedding of that function, `add_container_heap`, further below.
-/

namespace UnixC

/-- `enum Type {U_ROOT, U_FILE, U_DIR}` from `unix-datastructure.h`
(named `Ty` because `Type` is reserved in Lean). -/
inductive Ty : Type where
  | U_ROOT : Ty
  | U_FILE : Ty
  | U_DIR : Ty
deriving DecidableEq, Repr

/-- `struct container` from `unix-datastructure.h`: `name`, the `type` tag and
the children (`sub_dir`, resp. the root's `next` chain) in stored order.
`parent`/`next`/`prev` pointers are implicit in the tree shape. -/
inductive Container : Type where
  | mk (name : String) (type : Ty) (sub_dir : List Container) : Container

/-- Field accessor for `Container.name`. -/
def Container.name : Container → String
  | .mk n _ _ => n

/-- Field accessor for `Container.type`. -/
def Container.type : Container → Ty
  | .mk _ t _ => t

/-- Field accessor for `Container.sub_dir` (children list in stored order). -/
def Container.sub_dir : Container → List Container
  | .mk _ _ s => s

instance : Inhabited Container := ⟨.mk "" .U_FILE []⟩

/-- `struct unix`: the `root` node and the cursor `curr_dir`, the latter
represented by the path of names from the root to the cursor node. -/
structure Unix : Type where
  root : Container
  curr_dir : List String

/-- `#define CD "."` -/
def CD : String := "."

/-- `#define PARENT ".."` -/
def PARENT : String := ".."

/-- `#define ROOT "/"` -/
def ROOT : String := "/"

/-- `strcmp(a, b) < 0` on the character sequences: the first position where
the strings differ decides, a proper prefix is smaller.  (Codepoint order
agrees with the byte order `strcmp` uses, since UTF-8 preserves codepoint
order.) -/
def chars_lt : List Char → List Char → Bool
  | [], [] => false
  | [], _ :: _ => true
  | _ :: _, [] => false
  | a :: as, b :: bs =>
    if a.toNat < b.toNat then true
    else if b.toNat < a.toNat then false
    else chars_lt as bs

/-- `strcmp(a, b) < 0` on strings. -/
def str_lt (a b : String) : Bool :=
  chars_lt a.toList b.toList

/-- `invalid_arg` (unix.c:301): empty name, or `strstr(arg, "/") != NULL`,
i.e. the name contains the character `/` somewhere. -/
def invalid_arg (arg : String) : Bool :=
  arg.length == 0 || arg.toList.contains '/'

/-- `non_error_arg` (unix.c:310): the argument is one of the reserved tokens
`.`, `..`, `/`. -/
def non_error_arg (arg : String) : Bool :=
  arg == CD || arg == PARENT || arg == ROOT

/-- A name eligible to actually be stored in the tree: neither invalid nor a
reserved token (spec §4.2 "plain identifier"). -/
def legal_name (arg : String) : Bool :=
  !(invalid_arg arg) && !(non_error_arg arg)

/-- The scanning loop of `name_exists` (unix.c:336-350): walk the children
chain looking for an exact `strcmp` match, returning the matching node. -/
def find_in_chain : List Container → String → Option Container
  | [], _ => none
  | curr :: rest, arg =>
    if curr.name = arg then some curr else find_in_chain rest arg

/-- Resolve a cursor path to the node it denotes: follow the child of the
given name at each step.  Path `[]` is the node itself.  (This realizes the
`curr_dir` pointer of the C code.) -/
def getDir : Container → List String → Option Container
  | c, [] => some c
  | c, q :: qs =>
    match find_in_chain c.sub_dir q with
    | some child => getDir child qs
    | none => none

/-- The children chain of the node at a path (empty if the path does not
resolve; in every state reachable through the API the cursor path resolves). -/
def childrenAt (root : Container) (p : List String) : List Container :=
  match getDir root p with
  | some d => d.sub_dir
  | none => []

/-- The children chain of the current directory, as scanned by `name_exists`
(unix.c:325-334): the root's `next` chain when the cursor is the root, a
directory's `sub_dir` chain otherwise — both are `sub_dir` in this model. -/
def currChildren (filesystem : Unix) : List Container :=
  childrenAt filesystem.root filesystem.curr_dir

/-- `name_exists` (unix.c:322): scan the current directory's children for
`arg`.  The C out-parameter `exists` is `(name_exists …).isSome` here, and
`should_assign` only chooses whether the caller receives the pointer. -/
def name_exists (filesystem : Unix) (arg : String) : Option Container :=
  find_in_chain (currChildren filesystem) arg

mutual

/-- Replace the subtree at path `p` by applying `f` to the children list of
the node at `p`.  This is how the model expresses the pointer mutations that
`add_container_to_filesystem` and `delete` perform at the cursor.  If the
path does not resolve the tree is returned unchanged. -/
def updateAt : Container → List String → (List Container → List Container) → Container
  | .mk n t subs, [], f => .mk n t (f subs)
  | .mk n t subs, q :: qs, f => .mk n t (updateChildren subs q qs f)

/-- Helper of `updateAt`: apply the update to the first child named `q`. -/
def updateChildren : List Container → String → List String → (List Container → List Container) → List Container
  | [], _, _, _ => []
  | c :: rest, q, qs, f =>
    if c.name = q then updateAt c qs f :: rest
    else c :: updateChildren rest q qs f

end

/-- `mkfs` (unix.c:35): a fresh filesystem containing only the root
(`name = "/"`, `type = U_ROOT`, no children), which is also the cursor. -/
def mkfs : Unix :=
  { root := .mk "/" .U_ROOT [], curr_dir := [] }

end UnixC

namespace UnixC

/-- The insertion scan plus relinking of `add_container_to_filesystem`
(unix.c:377-434) expressed on the children list: walk forward while the
current node's name `strcmp`s below `arg` (the C loop also skips the root
sentinel, which in this model is already outside the children list), then
link the new node in just before the first name that is `≥ arg`.  A new
directory starts with `sub_dir = NULL`, i.e. `[]`. -/
def insert_sorted (arg : String) (type : Ty) : List Container → List Container
  | [] => [.mk arg type []]
  | curr :: rest =>
    if str_lt curr.name arg then curr :: insert_sorted arg type rest
    else .mk arg type [] :: curr :: rest

/-- `add_container_to_filesystem` (unix.c:365), on the success path where both
allocations succeed: splice a new node of the given type into the current
directory's children, keeping them sorted, and report 1.  (The allocation
failure paths of the same C function are modelled by `add_container_heap`
below, which tracks the raw pointer fields.) -/
def add_container_to_filesystem (filesystem : Unix) (arg : String) (type : Ty) : Int × Unix :=
  (1, { filesystem with
          root := updateAt filesystem.root filesystem.curr_dir (insert_sorted arg type) })

/-- `touch` (unix.c:75): NULL inputs are handled by `touch_c` below; reserved
tokens and already-existing names are silent successes, invalid names fail,
anything else is inserted as a `U_FILE`. -/
def touch (filesystem : Unix) (arg : String) : Int × Unix :=
  let ex := (name_exists filesystem arg).isSome
  if non_error_arg arg || ex then (1, filesystem)
  else if invalid_arg arg then (0, filesystem)
  else add_container_to_filesystem filesystem arg .U_FILE

/-- `mkdir` (unix.c:100): existing names and reserved tokens fail, invalid
names fail, anything else is inserted as a `U_DIR`. -/
def mkdir (filesystem : Unix) (arg : String) : Int × Unix :=
  let ex := (name_exists filesystem arg).isSome
  if ex || non_error_arg arg then (0, filesystem)
  else if invalid_arg arg then (0, filesystem)
  else add_container_to_filesystem filesystem arg .U_DIR

/-- `cd` (unix.c:126): `.`/empty is a no-op success; `..` moves to the parent
unless the cursor is the root (dropping the last path segment realizes
`curr_dir = curr_dir->parent`); `/` moves to the root (path `[]`); otherwise
the name is resolved among the current children — not found fails, a file
fails, a directory becomes the new cursor (path extended by its name).
The guard at unix.c:157 reads `!exists && non_error_arg(arg) == 0`, but at
that point the three reserved tokens have all returned already, so
`non_error_arg(arg)` is always 0 there and the guard is just `!exists`. -/
def cd (filesystem : Unix) (arg : String) : Int × Unix :=
  if arg = CD || arg.length == 0 then (1, filesystem)
  else if arg = PARENT then
    match getDir filesystem.root filesystem.curr_dir with
    | some d =>
      if d.type ≠ .U_ROOT then
        (1, { filesystem with curr_dir := filesystem.curr_dir.dropLast })
      else (1, filesystem)
    | none => (1, filesystem)
  else if arg = ROOT then (1, { filesystem with curr_dir := [] })
  else
    match name_exists filesystem arg with
    | none => (0, filesystem)
    | some position =>
      if position.type = .U_FILE then (0, filesystem)
      else (1, { filesystem with curr_dir := filesystem.curr_dir ++ [arg] })

/-- One line of `print_elements` output (unix.c:469-472): a directory is
rendered `name/`, anything else as the bare name, newline-terminated. -/
def render_elem (c : Container) : String :=
  if c.type = .U_DIR then c.name ++ "/\n" else c.name ++ "\n"

/-- The printing loop of `print_elements` (unix.c:467-481): each element of
the chain in order. -/
def print_chain : List Container → String
  | [] => ""
  | c :: rest => render_elem c ++ print_chain rest

/-- `print_elements` (unix.c:445).  Its argument is a node together with the
rest of its `next` chain (`chain`); an empty chain is the NULL pointer.  An
empty root prints nothing; for the root, or for the current directory, the
function descends to the children first; then every node of the remaining
chain is printed. -/
def print_elements (chain : List Container) (is_current_dir : Bool) : String :=
  match chain with
  | [] => ""
  | curr :: rest =>
    if curr.type = .U_ROOT && rest.isEmpty then ""
    else
      print_chain
        (if curr.type = .U_ROOT then rest
         else if is_current_dir then curr.sub_dir
         else curr :: rest)

/-- The suffix of a children list starting at the first node with the given
name (a pointer into the middle of a sibling chain). -/
def suffix_from : List Container → String → List Container
  | [], _ => []
  | c :: rest, n => if c.name = n then c :: rest else suffix_from rest n

/-- The node at path `p` followed by the rest of its `next` chain: for the
root this is the root followed by the top-level entries (the root's `next`
chain), for a child it is the suffix of its parent's children list starting
at it.  This is the pointer value the C code hands to `print_elements`. -/
def chainAt (root : Container) (p : List String) : List Container :=
  match p.getLast? with
  | none => root :: root.sub_dir
  | some last => suffix_from (childrenAt root p.dropLast) last

/-- `ls` (unix.c:179), with the printed text returned as a string: `.`/empty
lists the current directory; an unresolvable non-reserved name fails; `..`
lists from the cursor's parent node, `/` from the root; a resolved file
prints its name, a resolved directory its children. -/
def ls (filesystem : Unix) (arg : String) : Int × String :=
  let position := name_exists filesystem arg
  if arg = CD || arg.length == 0 then
    (1, print_elements (chainAt filesystem.root filesystem.curr_dir) true)
  else if position.isNone && !(non_error_arg arg) then (0, "")
  else
    let out1 :=
      if arg = PARENT then
        print_elements (chainAt filesystem.root filesystem.curr_dir.dropLast) false
      else ""
    let out2 :=
      if arg = ROOT then print_elements (chainAt filesystem.root []) false else ""
    let out3 :=
      match position with
      | some p => if p.type = .U_FILE then p.name ++ "\n" else print_chain p.sub_dir
      | none => ""
    (1, out1 ++ out2 ++ out3)

/-- The rendering of `pwd_helper` (unix.c:275) unwound from the root to the
cursor: the recursion first prints the root's name `/` (with a newline when
the root itself is the cursor, without one otherwise), then on the way back
down prints every intermediate directory as `name/` and the cursor's node as
`name` followed by a newline. -/
def pwd_go : List String → String
  | [] => ""
  | [x] => x ++ "\n"
  | x :: y :: rest => x ++ "/" ++ pwd_go (y :: rest)

/-- `pwd` (unix.c:225): the absolute path of the current directory as the
text `pwd_helper` prints. -/
def pwd (filesystem : Unix) : String :=
  match filesystem.curr_dir with
  | [] => "/\n"
  | p => "/" ++ pwd_go p

/-- The effect of `delete(position, 0)` (unix.c:493) on the children list
that contains `position`: the link repair (unix.c:507-520) unlinks exactly
that node, and the recursive call on `sub_dir` (unix.c:497-498) frees its
whole subtree, so the node disappears from the list together with its
descendants. -/
def delete_from : List Container → String → List Container
  | [], _ => []
  | c :: rest, arg => if c.name = arg then rest else c :: delete_from rest arg

/-- `rm` (unix.c:244), for non-NULL inputs (the NULL behaviour, which in the
C code dereferences the arguments before checking them, is modelled by
`rm_c` below): invalid names, reserved tokens and absent names fail;
otherwise the resolved child is deleted with its subtree. -/
def rm (filesystem : Unix) (arg : String) : Int × Unix :=
  let position := name_exists filesystem arg
  if invalid_arg arg || non_error_arg arg || position.isNone then (0, filesystem)
  else
    (1, { filesystem with
            root := updateAt filesystem.root filesystem.curr_dir
                      (fun cs => delete_from cs arg) })

end UnixC

namespace UnixC

/-- One step of strict `strcmp` sortedness: each name is strictly below the
next one in the list. -/
def sorted_names : List String → Bool
  | [] => true
  | [_] => true
  | a :: b :: rest => str_lt a b && sorted_names (b :: rest)

mutual

/-- The structural invariant of the tree (spec §3): in every directory the
children's names are strictly ascending (hence unique) and every stored name
is a legal identifier, recursively. -/
def nodeWF : Container → Bool
  | .mk _ _ subs =>
    sorted_names (subs.map Container.name)
      && (subs.map Container.name).all legal_name
      && listWF subs

/-- `nodeWF` for every node of a children list. -/
def listWF : List Container → Bool
  | [] => true
  | c :: cs => nodeWF c && listWF cs

end

mutual

/-- All names occurring in a subtree (the node itself and every descendant). -/
def subtree_names : Container → List String
  | .mk n _ subs => n :: chain_names subs

/-- All names occurring in the subtrees of a children list. -/
def chain_names : List Container → List String
  | [] => []
  | c :: cs => subtree_names c ++ chain_names cs

end

/-- The creation calls a driver can interleave (claim C1). -/
inductive Cmd : Type where
  | create_file (arg : String) : Cmd
  | create_dir (arg : String) : Cmd

/-- Run one creation call, keeping the updated filesystem. -/
def runCmd (filesystem : Unix) : Cmd → Unix
  | .create_file arg => (touch filesystem arg).2
  | .create_dir arg => (mkdir filesystem arg).2

/-- Run a sequence of interleaved creation calls from left to right. -/
def runCmds (filesystem : Unix) (cmds : List Cmd) : Unix :=
  cmds.foldl runCmd filesystem

end UnixC

namespace UnixC

/-!
NULL-argument behaviour.  The C functions take pointers; `none` below is the
NULL pointer, and `Except Unit` makes a NULL dereference (undefined
behaviour / crash) explicit as `.error ()` while defined executions are
`.ok`.
-/

/-- `touch` (unix.c:79-80): both arguments are checked against NULL before
anything is read, so NULL inputs return 0 untouched. -/
def touch_c (filesystem : Option Unix) (arg : Option String) : Except Unit (Int × Option Unix) :=
  match filesystem, arg with
  | none, _ => .ok (0, filesystem)
  | _, none => .ok (0, filesystem)
  | some fs, some a => .ok ((touch fs a).1, some (touch fs a).2)

/-- `mkdir` (unix.c:104-105): NULL inputs return 0 before anything is read. -/
def mkdir_c (filesystem : Option Unix) (arg : Option String) : Except Unit (Int × Option Unix) :=
  match filesystem, arg with
  | none, _ => .ok (0, filesystem)
  | _, none => .ok (0, filesystem)
  | some fs, some a => .ok ((mkdir fs a).1, some (mkdir fs a).2)

/-- `cd` (unix.c:131-132): NULL inputs return 0 before anything is read. -/
def cd_c (filesystem : Option Unix) (arg : Option String) : Except Unit (Int × Option Unix) :=
  match filesystem, arg with
  | none, _ => .ok (0, filesystem)
  | _, none => .ok (0, filesystem)
  | some fs, some a => .ok ((cd fs a).1, some (cd fs a).2)

/-- `ls` (unix.c:184-185): NULL inputs return 0 before anything is read. -/
def ls_c (filesystem : Option Unix) (arg : Option String) : Except Unit (Int × Option Unix) :=
  match filesystem, arg with
  | none, _ => .ok (0, filesystem)
  | _, none => .ok (0, filesystem)
  | some fs, some a => .ok ((ls fs a).1, some fs)

/-- `name_exists` called with possibly-NULL arguments, as `rm` does
(unix.c:249): the function dereferences `filesystem->curr_dir` at once, so a
NULL filesystem is undefined behaviour; a NULL `arg` reaches
`strcmp(curr->name, NULL)` — also undefined behaviour — as soon as the
current directory has at least one child. -/
def name_exists_c (filesystem : Option Unix) (arg : Option String) : Except Unit (Option Container) :=
  match filesystem with
  | none => .error ()
  | some fs =>
    match arg with
    | none => if (currChildren fs).isEmpty then .ok none else .error ()
    | some a => .ok (name_exists fs a)

/-- `rm` (unix.c:244-263) with NULL-able arguments: the call to `name_exists`
at unix.c:249 happens BEFORE the NULL checks at unix.c:251-252, so those
checks only run if the lookup happened to be defined. -/
def rm_c (filesystem : Option Unix) (arg : Option String) : Except Unit (Int × Option Unix) :=
  match name_exists_c filesystem arg with
  | .error () => .error ()
  | .ok _ =>
    match filesystem, arg with
    | none, _ => .ok (0, filesystem)
    | _, none => .ok (0, filesystem)
    | some fs, some a => .ok ((rm fs a).1, some (rm fs a).2)

end UnixC

namespace UnixC

/-!
Heap-level embedding of `add_container_to_filesystem` (unix.c:365-437).

The tree model above cannot express the partially linked node that the C
function leaves behind when the second `malloc` (for the name) fails, because
at unix.c:401-402 the function has already stored the new node's address into
`curr->prev`, and the failure path (unix.c:410-416) frees the node without
undoing that store.  Here the pointer structure is explicit: a heap is a list
of cells addressed by position, a freed or unallocated cell is `none`, and
every pointer field is an `Option Nat` address.
-/

/-- `struct container` with its raw pointer fields (`hname` is the `char *`
name, which is NULL until the `strcpy` at unix.c:419). -/
structure HContainer : Type where
  hname : Option String
  hparent : Option Nat
  hnext : Option Nat
  hprev : Option Nat
  htype : Ty
  hsub : Option Nat
deriving DecidableEq, Repr

/-- A heap: cell `a` of the list is the container at address `a`, `none` if
freed or unallocated. -/
abbrev Heap : Type := List (Option HContainer)

/-- Dereference an address. -/
def hget (h : Heap) (a : Nat) : Option HContainer :=
  (List.getD h a none)

/-- Store a container at an address. -/
def hset (h : Heap) (a : Nat) (c : HContainer) : Heap :=
  List.set h a (some c)

/-- The scanning loop of unix.c:378-382: advance `prev`/`curr` while `curr`
is non-NULL and is either the root sentinel or has a name `strcmp`-below
`arg`.  `fuel` bounds the walk (the heap size suffices on the acyclic heaps
the program builds). -/
def find_insert_pos (h : Heap) (arg : String) : Nat → Nat → Option Nat → Nat × Option Nat
  | 0, prev, curr => (prev, curr)
  | _ + 1, prev, none => (prev, none)
  | fuel + 1, prev, some a =>
    match hget h a with
    | none => (prev, some a)
    | some c =>
      if c.htype = .U_ROOT || str_lt (c.hname.getD "") arg then
        find_insert_pos h arg fuel a c.hnext
      else (prev, some a)

/-- `add_container_to_filesystem` (unix.c:365-437) on the explicit heap.
`alloc_node` and `alloc_name` tell whether the two `malloc` calls succeed.
The new cell is appended at address `h.length`.  Mirrors the C statement
order: scan, allocate the node, initialize `parent`/`next`/`type`/`prev`,
store the new address into `curr->prev` when `curr` is non-NULL
(unix.c:401-402), clear `sub_dir` for directories, then allocate and set the
name — on failure free the node and return 0 (unix.c:410-416) — and finally
hook the node in through `sub_dir` or `prev->next` (unix.c:424-434). -/
def add_container_heap (h : Heap) (curr_dir : Nat) (arg : String) (type : Ty)
    (alloc_node alloc_name : Bool) : Int × Heap :=
  match hget h curr_dir with
  | none => (0, h)
  | some cd0 =>
    let start : Option Nat := if cd0.htype = .U_DIR then cd0.hsub else some curr_dir
    let pc := find_insert_pos h arg h.length curr_dir start
    let prev := pc.1
    let curr := pc.2
    if alloc_node = false then (0, h)
    else
      let a := h.length
      let newc : HContainer :=
        { hname := none, hparent := some curr_dir, hnext := curr,
          hprev := some prev, htype := type,
          hsub := none }
      let h1 : Heap := h ++ [some newc]
      let h2 : Heap :=
        match curr with
        | some ca =>
          match hget h1 ca with
          | some cc => hset h1 ca { cc with hprev := some a }
          | none => h1
        | none => h1
      if alloc_name = false then (0, List.set h2 a none)
      else
        let h3 : Heap := hset h2 a { newc with hname := some arg }
        let cdNow := (hget h3 curr_dir).getD cd0
        let h4 : Heap :=
          if cdNow.htype = .U_DIR && cdNow.hsub = none then
            hset h3 curr_dir { cdNow with hsub := some a }
          else if prev = curr_dir && cdNow.htype = .U_DIR then
            match hget h3 prev with
            | some pc' => hset h3 prev { pc' with hsub := some a }
            | none => h3
          else
            match hget h3 prev with
            | some pc' => hset h3 prev { pc' with hnext := some a }
            | none => h3
        (1, h4)

/-- The heap produced by `mkfs` followed by a successful `touch(fs, "b")`:
the root at address 0 (with `parent` self-loop and `next` pointing at the
file), the file `b` at address 1. -/
def heap_fs_b : Heap :=
  [some { hname := some "/", hparent := some 0, hnext := some 1,
          hprev := none, htype := .U_ROOT, hsub := none },
   some { hname := some "b", hparent := some 0, hnext := none,
          hprev := some 0, htype := .U_FILE, hsub := none }]

end UnixC

namespace UnixC

/-- Name-level view of `insert_sorted`: where the new name lands in the list
of names (proof helper; `insert_sorted_map_name` ties it to the model). -/
def insert_names (arg : String) : List String → List String
  | [] => [arg]
  | n :: rest => if str_lt n arg then n :: insert_names arg rest else arg :: n :: rest

/-- The filesystem built by `mkfs; mkdir "a"; cd "a"; touch "b"; cd "..";
touch "b"`: the directory `a` contains a file `b`, and the root also
contains a file `b`. -/
def fs_sibling_clash : Unix :=
  (touch ((cd ((touch ((cd ((mkdir mkfs "a").2) "a").2) "b").2) "..").2) "b").2

/-- The filesystem built by `mkfs; mkdir "a"; cd "a"; mkdir "b"; cd "b"`. -/
def fs_slash_a_b : Unix :=
  (cd ((mkdir ((cd ((mkdir mkfs "a").2) "a").2) "b").2) "b").2

end UnixC

namespace UnixC

/-! ### The strcmp order -/

theorem char_eq_of_toNat_eq {a b : Char} (h : a.toNat = b.toNat) : a = b :=
  Char.ext (UInt32.ext h)

theorem chars_lt_irrefl : ∀ (a : List Char), chars_lt a a = false
  | [] => rfl
  | x :: xs => by simp [chars_lt, chars_lt_irrefl xs]

theorem chars_lt_trans : ∀ (a b c : List Char),
    chars_lt a b = true → chars_lt b c = true → chars_lt a c = true
  | [], [], c, h1, _ => by cases c <;> simp_all [chars_lt]
  | [], _ :: _, c, _, h2 => by cases c <;> simp_all [chars_lt]
  | _ :: _, [], _, h1, _ => by simp [chars_lt] at h1
  | _ :: _, _ :: _, [], _, h2 => by simp [chars_lt] at h2
  | x :: xs, y :: ys, z :: zs, h1, h2 => by
    simp only [chars_lt] at h1 h2 ⊢
    by_cases hxy : x.toNat < y.toNat
    · by_cases hyz : y.toNat < z.toNat
      · simp [Nat.lt_trans hxy hyz]
      · by_cases hzy : z.toNat < y.toNat
        · simp only [if_neg hyz, if_pos hzy] at h2
          cases h2
        · have hxz : x.toNat < z.toNat := by omega
          simp [hxz]
    · by_cases hyx : y.toNat < x.toNat
      · simp only [if_neg hxy, if_pos hyx] at h1
        cases h1
      · simp only [if_neg hxy, if_neg hyx] at h1
        by_cases hyz : y.toNat < z.toNat
        · have hxz : x.toNat < z.toNat := by omega
          simp [hxz]
        · by_cases hzy : z.toNat < y.toNat
          · simp only [if_neg hyz, if_pos hzy] at h2
            cases h2
          · simp only [if_neg hyz, if_neg hzy] at h2
            have hxz : ¬ x.toNat < z.toNat := by omega
            have hzx : ¬ z.toNat < x.toNat := by omega
            simp only [if_neg hxz, if_neg hzx]
            exact chars_lt_trans xs ys zs h1 h2

theorem chars_lt_conn : ∀ (a b : List Char),
    chars_lt a b = false → chars_lt b a = false → a = b
  | [], [], _, _ => rfl
  | [], _ :: _, h, _ => by simp [chars_lt] at h
  | _ :: _, [], _, h => by simp [chars_lt] at h
  | x :: xs, y :: ys, h1, h2 => by
    simp only [chars_lt] at h1 h2
    split_ifs at h1 h2
    simp_all
    rename_i hxy hyx
    have hx : x = y := char_eq_of_toNat_eq (by omega)
    exact ⟨hx, chars_lt_conn xs ys h1 h2⟩

theorem str_lt_irrefl (a : String) : str_lt a a = false :=
  chars_lt_irrefl a.toList

theorem str_lt_trans {a b c : String}
    (h1 : str_lt a b = true) (h2 : str_lt b c = true) : str_lt a c = true :=
  chars_lt_trans a.toList b.toList c.toList h1 h2

theorem str_lt_conn {a b : String}
    (h1 : str_lt a b = false) (h2 : str_lt b a = false) : a = b := by
  have h := chars_lt_conn a.toList b.toList h1 h2
  cases a
  cases b
  simp only [String.toList] at h
  exact congrArg String.mk h

theorem str_lt_ne {a b : String} (h : str_lt a b = true) : a ≠ b := by
  intro hab
  rw [hab, str_lt_irrefl] at h
  cases h

end UnixC

namespace UnixC

/-! ### Lookup, insertion and deletion on a children chain -/

@[simp] theorem Container.name_mk (n : String) (t : Ty) (s : List Container) :
    (Container.mk n t s).name = n := rfl

@[simp] theorem Container.type_mk (n : String) (t : Ty) (s : List Container) :
    (Container.mk n t s).type = t := rfl

@[simp] theorem Container.sub_dir_mk (n : String) (t : Ty) (s : List Container) :
    (Container.mk n t s).sub_dir = s := rfl

theorem find_in_chain_name : ∀ {cs : List Container} {q : String} {c : Container},
    find_in_chain cs q = some c → c.name = q := by
  intro cs q c h
  induction cs with
  | nil => cases h
  | cons x rest ih =>
    by_cases hx : x.name = q
    · simp only [find_in_chain, if_pos hx] at h
      cases h
      exact hx
    · simp only [find_in_chain, if_neg hx] at h
      exact ih h

theorem find_in_chain_none_iff {cs : List Container} {q : String} :
    find_in_chain cs q = none ↔ q ∉ cs.map Container.name := by
  induction cs with
  | nil => simp [find_in_chain]
  | cons x rest ih =>
    by_cases hx : x.name = q
    · simp [find_in_chain, hx]
    · simp only [find_in_chain, if_neg hx, List.map_cons, List.mem_cons, ih]
      constructor
      · intro h hmem
        rcases hmem with h1 | h2
        · exact hx h1.symm
        · exact h h2
      · intro h hmem
        exact h (Or.inr hmem)

theorem find_in_chain_mem {cs : List Container} {q : String} {c : Container}
    (h : find_in_chain cs q = some c) : c ∈ cs := by
  induction cs with
  | nil => cases h
  | cons x rest ih =>
    by_cases hx : x.name = q
    · simp only [find_in_chain, if_pos hx] at h
      cases h
      exact List.mem_cons_self _ _
    · simp only [find_in_chain, if_neg hx] at h
      exact List.mem_cons_of_mem x (ih h)

theorem insert_sorted_map_name (arg : String) (ty : Ty) :
    ∀ (cs : List Container),
      (insert_sorted arg ty cs).map Container.name = insert_names arg (cs.map Container.name)
  | [] => rfl
  | c :: rest => by
    cases c with
    | mk n t s =>
      simp only [insert_sorted, insert_names, List.map_cons, Container.name_mk]
      by_cases hc : str_lt n arg = true
      · simp [hc, insert_sorted_map_name arg ty rest]
      · simp [hc]

theorem insert_names_ne_nil (arg : String) (l : List String) :
    insert_names arg l ≠ [] := by
  cases l with
  | nil => simp [insert_names]
  | cons n rest =>
    simp only [insert_names]
    split <;> simp

theorem insert_names_head (arg : String) (l : List String) :
    (insert_names arg l).head? = some arg ∨ (insert_names arg l).head? = l.head? := by
  cases l with
  | nil => left; rfl
  | cons n rest =>
    simp only [insert_names]
    split
    · right; rfl
    · left; rfl

theorem sorted_names_cons {x : String} {l : List String} :
    sorted_names (x :: l) = true ↔
      (∀ y, l.head? = some y → str_lt x y = true) ∧ sorted_names l = true := by
  cases l with
  | nil => simp [sorted_names]
  | cons y rest =>
    simp only [sorted_names, Bool.and_eq_true, List.head?_cons]
    constructor
    · rintro ⟨h1, h2⟩
      exact ⟨fun z hz => by cases hz; exact h1, h2⟩
    · rintro ⟨h1, h2⟩
      exact ⟨h1 y rfl, h2⟩

theorem sorted_insert_names {arg : String} :
    ∀ {l : List String}, sorted_names l = true → arg ∉ l →
      sorted_names (insert_names arg l) = true := by
  intro l
  induction l with
  | nil => intro _ _; rfl
  | cons n rest ih =>
    intro hs hmem
    have hne : arg ≠ n := fun h => hmem (by simp [h])
    have hrest : arg ∉ rest := fun h => hmem (List.mem_cons_of_mem n h)
    rw [sorted_names_cons] at hs
    simp only [insert_names]
    by_cases hlt : str_lt n arg = true
    · rw [if_pos hlt, sorted_names_cons]
      refine ⟨?_, ih hs.2 hrest⟩
      intro y hy
      rcases insert_names_head arg rest with hh | hh
      · rw [hh] at hy
        cases hy
        exact hlt
      · rw [hh] at hy
        exact hs.1 y hy
    · simp only [Bool.not_eq_true] at hlt
      have harg : str_lt arg n = true := by
        rcases h : str_lt arg n with _ | _
        · exact absurd (str_lt_conn h hlt) hne
        · rfl
      rw [if_neg (by simp [hlt]), sorted_names_cons]
      refine ⟨fun y hy => ?_, by rw [sorted_names_cons]; exact hs⟩
      cases hy
      exact harg

theorem all_legal_insert_names {arg : String} {l : List String}
    (hl : l.all legal_name = true) (ha : legal_name arg = true) :
    (insert_names arg l).all legal_name = true := by
  induction l with
  | nil => simp [insert_names, ha]
  | cons n rest ih =>
    simp only [List.all_cons, Bool.and_eq_true] at hl
    simp only [insert_names]
    split
    · simp only [List.all_cons, Bool.and_eq_true]
      exact ⟨hl.1, ih hl.2⟩
    · simp only [List.all_cons, Bool.and_eq_true]
      exact ⟨ha, hl.1, hl.2⟩

theorem listWF_insert_sorted {arg : String} {ty : Ty} :
    ∀ {cs : List Container}, listWF cs = true →
      listWF (insert_sorted arg ty cs) = true := by
  intro cs
  induction cs with
  | nil => intro _; rfl
  | cons c rest ih =>
    intro h
    simp only [listWF, Bool.and_eq_true] at h
    simp only [insert_sorted]
    split
    · simp only [listWF, Bool.and_eq_true]
      exact ⟨h.1, ih h.2⟩
    · have hnew : nodeWF (Container.mk arg ty []) = true := rfl
      simp only [listWF, Bool.and_eq_true]
      exact ⟨hnew, h.1, h.2⟩

theorem find_insert_sorted_self (arg : String) (ty : Ty) :
    ∀ (cs : List Container), (find_in_chain (insert_sorted arg ty cs) arg).isSome = true
  | [] => by simp [insert_sorted, find_in_chain, Container.name]
  | c :: rest => by
    simp only [insert_sorted]
    split
    · by_cases hc : c.name = arg
      · simp [find_in_chain, hc]
      · simp only [find_in_chain, if_neg hc]
        exact find_insert_sorted_self arg ty rest
    · simp [find_in_chain, Container.name]

theorem sorted_names_head_lt : ∀ {x : String} {l : List String},
    sorted_names (x :: l) = true → ∀ y ∈ l, str_lt x y = true := by
  intro x l
  induction l generalizing x with
  | nil => intro _ y hy; cases hy
  | cons z rest ih =>
    intro hs y hy
    rw [sorted_names_cons] at hs
    have hxz : str_lt x z = true := hs.1 z (by simp)
    rcases List.mem_cons.mp hy with h | h
    · cases h
      exact hxz
    · exact str_lt_trans hxz (ih hs.2 y h)

theorem sorted_names_pairwise : ∀ {l : List String},
    sorted_names l = true → List.Pairwise (fun a b => str_lt a b = true) l := by
  intro l
  induction l with
  | nil => intro _; exact List.Pairwise.nil
  | cons x rest ih =>
    intro hs
    refine List.pairwise_cons.mpr ⟨sorted_names_head_lt hs, ?_⟩
    rw [sorted_names_cons] at hs
    exact ih hs.2

theorem sorted_names_delete {arg : String} :
    ∀ {cs : List Container}, sorted_names (cs.map Container.name) = true →
      find_in_chain (delete_from cs arg) arg = none := by
  intro cs
  induction cs with
  | nil => intro _; rfl
  | cons c rest ih =>
    intro hs
    rw [List.map_cons] at hs
    by_cases hc : c.name = arg
    · simp only [delete_from, if_pos hc]
      rw [find_in_chain_none_iff]
      intro hmem
      have hlt : str_lt c.name arg = true :=
        sorted_names_head_lt hs arg hmem
      rw [hc, str_lt_irrefl] at hlt
      cases hlt
    · simp only [delete_from, if_neg hc, find_in_chain, if_neg hc]
      exact ih (by rw [sorted_names_cons] at hs; exact hs.2)

end UnixC

namespace UnixC

/-! ### Tree lemmas: paths, updates and the invariant -/

theorem updateAt_name (c : Container) (p : List String) (f : List Container → List Container) :
    (updateAt c p f).name = c.name := by
  cases c
  cases p <;> rfl

theorem updateChildren_names (q : String) (qs : List String) (f : List Container → List Container) :
    ∀ (cs : List Container),
      (updateChildren cs q qs f).map Container.name = cs.map Container.name
  | [] => rfl
  | c :: rest => by
    simp only [updateChildren]
    split
    · simp [updateAt_name]
    · simp [updateChildren_names q qs f rest]

theorem updateChildren_none {q : String} {qs : List String} {f : List Container → List Container} :
    ∀ {cs : List Container}, find_in_chain cs q = none → updateChildren cs q qs f = cs := by
  intro cs
  induction cs with
  | nil => intro _; rfl
  | cons c rest ih =>
    intro h
    by_cases hc : c.name = q
    · simp [find_in_chain, hc] at h
    · simp only [find_in_chain, if_neg hc] at h
      simp [updateChildren, hc, ih h]

theorem find_updateChildren {q : String} {qs : List String} {f : List Container → List Container} :
    ∀ {cs : List Container} {c : Container}, find_in_chain cs q = some c →
      find_in_chain (updateChildren cs q qs f) q = some (updateAt c qs f) := by
  intro cs
  induction cs with
  | nil => intro c h; cases h
  | cons x rest ih =>
    intro c h
    by_cases hx : x.name = q
    · simp only [find_in_chain, if_pos hx] at h
      cases h
      simp only [updateChildren, if_pos hx, find_in_chain]
      rw [if_pos (by rw [updateAt_name]; exact hx)]
    · simp only [find_in_chain, if_neg hx] at h
      simp only [updateChildren, if_neg hx, find_in_chain, if_neg hx]
      exact ih h

theorem childrenAt_nil (root : Container) : childrenAt root [] = root.sub_dir := rfl

theorem childrenAt_cons (root : Container) (q : String) (qs : List String) :
    childrenAt root (q :: qs) =
      match find_in_chain root.sub_dir q with
      | some child => childrenAt child qs
      | none => [] := by
  simp only [childrenAt, getDir]
  cases find_in_chain root.sub_dir q <;> rfl

theorem childrenAt_updateAt {f : List Container → List Container} :
    ∀ {p : List String} {root d : Container}, getDir root p = some d →
      childrenAt (updateAt root p f) p = f (childrenAt root p) := by
  intro p
  induction p with
  | nil =>
    intro root d _
    cases root
    rfl
  | cons q qs ih =>
    intro root d h
    cases root with
    | mk n t subs =>
      simp only [getDir, Container.sub_dir_mk] at h
      cases hfq : find_in_chain subs q with
      | none => rw [hfq] at h; cases h
      | some child =>
        rw [hfq] at h
        have hfind := @find_updateChildren q qs f subs child hfq
        rw [childrenAt_cons, childrenAt_cons]
        simp only [updateAt, Container.sub_dir_mk]
        rw [hfind, hfq]
        exact ih h

theorem listWF_mem : ∀ {cs : List Container} {c : Container},
    listWF cs = true → c ∈ cs → nodeWF c = true := by
  intro cs
  induction cs with
  | nil => intro c _ h; cases h
  | cons x rest ih =>
    intro c h hmem
    simp only [listWF, Bool.and_eq_true] at h
    rcases List.mem_cons.mp hmem with h1 | h1
    · cases h1; exact h.1
    · exact ih h.2 h1

theorem nodeWF_parts {c : Container} :
    nodeWF c = true ↔
      sorted_names (c.sub_dir.map Container.name) = true
        ∧ (c.sub_dir.map Container.name).all legal_name = true
        ∧ listWF c.sub_dir = true := by
  cases c
  simp [nodeWF, Bool.and_eq_true, and_assoc]

theorem find_in_chain_wf {cs : List Container} {q : String} {c : Container}
    (hwf : listWF cs = true) (h : find_in_chain cs q = some c) : nodeWF c = true :=
  listWF_mem hwf (find_in_chain_mem h)

theorem getDir_wf : ∀ {p : List String} {root d : Container},
    nodeWF root = true → getDir root p = some d → nodeWF d = true := by
  intro p
  induction p with
  | nil =>
    intro root d h hd
    cases hd
    exact h
  | cons q qs ih =>
    intro root d h hd
    simp only [getDir] at hd
    cases hfq : find_in_chain root.sub_dir q with
    | none => rw [hfq] at hd; cases hd
    | some child =>
      rw [hfq] at hd
      exact ih (find_in_chain_wf (nodeWF_parts.mp h).2.2 hfq) hd

theorem wf_find_legal {d : Container} {n : String} {c : Container}
    (hwf : nodeWF d = true) (h : find_in_chain d.sub_dir n = some c) :
    legal_name n = true := by
  have hall := (nodeWF_parts.mp hwf).2.1
  have hmem : n ∈ d.sub_dir.map Container.name := by
    rw [← find_in_chain_name h]
    exact List.mem_map_of_mem Container.name (find_in_chain_mem h)
  rw [List.all_eq_true] at hall
  exact hall n hmem

theorem getDir_append {n : String} : ∀ {p : List String} {root d c : Container},
    getDir root p = some d → find_in_chain d.sub_dir n = some c →
    getDir root (p ++ [n]) = some c := by
  intro p
  induction p with
  | nil =>
    intro root d c h hf
    cases h
    simp [getDir, hf]
  | cons q qs ih =>
    intro root d c h hf
    simp only [getDir] at h ⊢
    cases hfq : find_in_chain root.sub_dir q with
    | none => rw [hfq] at h; cases h
    | some child =>
      rw [hfq] at h
      exact ih h hf

theorem listWF_updateChildren {q : String} {qs : List String} {f : List Container → List Container} :
    ∀ {cs : List Container}, listWF cs = true →
      (∀ c, find_in_chain cs q = some c → nodeWF c = true → nodeWF (updateAt c qs f) = true) →
      listWF (updateChildren cs q qs f) = true := by
  intro cs
  induction cs with
  | nil => intro _ _; rfl
  | cons c rest ih =>
    intro h hrec
    simp only [listWF, Bool.and_eq_true] at h
    by_cases hc : c.name = q
    · simp only [updateChildren, if_pos hc, listWF, Bool.and_eq_true]
      refine ⟨hrec c ?_ h.1, h.2⟩
      simp [find_in_chain, hc]
    · simp only [updateChildren, if_neg hc, listWF, Bool.and_eq_true]
      refine ⟨h.1, ih h.2 ?_⟩
      intro c' hc' hwf'
      refine hrec c' ?_ hwf'
      simp [find_in_chain, hc, hc']

theorem updateAt_insert_wf {arg : String} {ty : Ty} :
    ∀ {p : List String} {root : Container}, nodeWF root = true →
      legal_name arg = true →
      find_in_chain (childrenAt root p) arg = none →
      nodeWF (updateAt root p (insert_sorted arg ty)) = true := by
  intro p
  induction p with
  | nil =>
    intro root hroot hl hfind
    cases root with
    | mk n t subs =>
      rw [childrenAt_nil, Container.sub_dir_mk] at hfind
      rw [nodeWF_parts] at hroot ⊢
      simp only [updateAt, Container.sub_dir_mk] at *
      refine ⟨?_, ?_, ?_⟩
      · rw [insert_sorted_map_name]
        exact sorted_insert_names hroot.1 (find_in_chain_none_iff.mp hfind)
      · rw [insert_sorted_map_name]
        exact all_legal_insert_names hroot.2.1 hl
      · exact listWF_insert_sorted hroot.2.2
  | cons q qs ih =>
    intro root hroot hl hfind
    cases root with
    | mk n t subs =>
      rw [childrenAt_cons, Container.sub_dir_mk] at hfind
      rw [nodeWF_parts] at hroot
      simp only [Container.sub_dir_mk] at hroot
      cases hfq : find_in_chain subs q with
      | none =>
        simp only [updateAt, Container.sub_dir_mk]
        rw [updateChildren_none hfq]
        rw [nodeWF_parts]
        exact ⟨hroot.1, hroot.2.1, hroot.2.2⟩
      | some child =>
        rw [hfq] at hfind
        simp only [updateAt]
        rw [nodeWF_parts]
        simp only [Container.sub_dir_mk]
        refine ⟨?_, ?_, ?_⟩
        · rw [updateChildren_names]
          exact hroot.1
        · rw [updateChildren_names]
          exact hroot.2.1
        · refine listWF_updateChildren hroot.2.2 ?_
          intro c hc hwfc
          rw [hfq] at hc
          cases hc
          exact ih hwfc hl hfind

end UnixC

namespace UnixC

/-! ### Operation-level lemmas -/

theorem legal_of_checks {a : String}
    (hne : non_error_arg a = false) (hinv : invalid_arg a = false) :
    legal_name a = true := by
  simp [legal_name, hne, hinv]

theorem touch_wf {fs : Unix} {a : String} (h : nodeWF fs.root = true) :
    nodeWF (touch fs a).2.root = true := by
  simp only [touch]
  by_cases h1 : (non_error_arg a || (name_exists fs a).isSome) = true
  · rw [if_pos h1]
    exact h
  · rw [if_neg h1]
    rw [Bool.or_eq_true, not_or, Bool.not_eq_true, Bool.not_eq_true] at h1
    by_cases h2 : invalid_arg a = true
    · rw [if_pos h2]
      exact h
    · rw [if_neg h2, Bool.not_eq_true] at *
      simp only [add_container_to_filesystem]
      refine updateAt_insert_wf h (legal_of_checks h1.1 h2) ?_
      have h12 := h1.2
      simp only [name_exists, currChildren] at h12
      cases hfc : find_in_chain (childrenAt fs.root fs.curr_dir) a with
      | none => rfl
      | some c => simp [hfc] at h12

theorem mkdir_wf {fs : Unix} {a : String} (h : nodeWF fs.root = true) :
    nodeWF (mkdir fs a).2.root = true := by
  simp only [mkdir]
  by_cases h1 : ((name_exists fs a).isSome || non_error_arg a) = true
  · rw [if_pos h1]
    exact h
  · rw [if_neg h1]
    rw [Bool.or_eq_true, not_or, Bool.not_eq_true, Bool.not_eq_true] at h1
    by_cases h2 : invalid_arg a = true
    · rw [if_pos h2]
      exact h
    · rw [if_neg h2, Bool.not_eq_true] at *
      simp only [add_container_to_filesystem]
      refine updateAt_insert_wf h (legal_of_checks h1.2 h2) ?_
      have h11 := h1.1
      simp only [name_exists, currChildren] at h11
      cases hfc : find_in_chain (childrenAt fs.root fs.curr_dir) a with
      | none => rfl
      | some c => simp [hfc] at h11

theorem runCmd_wf {fs : Unix} {c : Cmd} (h : nodeWF fs.root = true) :
    nodeWF (runCmd fs c).root = true := by
  cases c with
  | create_file a => exact touch_wf h
  | create_dir a => exact mkdir_wf h

theorem runCmds_wf : ∀ {cmds : List Cmd} {fs : Unix},
    nodeWF fs.root = true → nodeWF (runCmds fs cmds).root = true := by
  intro cmds
  induction cmds with
  | nil => intro fs h; exact h
  | cons c rest ih =>
    intro fs h
    exact ih (runCmd_wf h)

theorem nodeWF_pairwiseAt : ∀ {p : List String} {root : Container},
    nodeWF root = true →
    List.Pairwise (fun a b => str_lt a b = true) ((childrenAt root p).map Container.name) := by
  intro p
  induction p with
  | nil =>
    intro root h
    rw [childrenAt_nil]
    exact sorted_names_pairwise (nodeWF_parts.mp h).1
  | cons q qs ih =>
    intro root h
    rw [childrenAt_cons]
    cases hfq : find_in_chain root.sub_dir q with
    | none => exact List.Pairwise.nil
    | some child =>
      exact ih (find_in_chain_wf (nodeWF_parts.mp h).2.2 hfq)

theorem mkfs_wf : nodeWF mkfs.root = true := rfl

end UnixC

namespace UnixC

theorem non_error_of_invalid {arg : String} (hinv : invalid_arg arg = true)
    (hne : arg ≠ ROOT) : non_error_arg arg = false := by
  by_cases h1 : arg = CD
  · subst h1
    exact absurd hinv (by decide)
  · by_cases h2 : arg = PARENT
    · subst h2
      exact absurd hinv (by decide)
    · simp [non_error_arg, beq_iff_eq, h1, h2, hne]

theorem not_exists_of_invalid {fs : Unix} {arg : String}
    (hwf : nodeWF fs.root = true) (hinv : invalid_arg arg = true) :
    name_exists fs arg = none := by
  rw [name_exists, currChildren]
  cases hgd : getDir fs.root fs.curr_dir with
  | none =>
    simp [childrenAt, hgd, find_in_chain]
  | some d =>
    have hd := getDir_wf hwf hgd
    rw [find_in_chain_none_iff]
    intro hmem
    have hall := (nodeWF_parts.mp hd).2.1
    rw [List.all_eq_true] at hall
    simp only [childrenAt, hgd] at hmem
    have hleg := hall arg hmem
    rw [legal_name, hinv] at hleg
    cases hleg

theorem legal_name_breakdown {arg : String} (h : legal_name arg = true) :
    invalid_arg arg = false ∧ non_error_arg arg = false := by
  rw [legal_name, Bool.and_eq_true, Bool.not_eq_true', Bool.not_eq_true'] at h
  exact h

theorem non_error_false_parts {arg : String} (h : non_error_arg arg = false) :
    arg ≠ CD ∧ arg ≠ PARENT ∧ arg ≠ ROOT := by
  rw [non_error_arg] at h
  simp only [Bool.or_eq_false_iff, beq_eq_false_iff_ne, ne_eq] at h
  exact ⟨h.1.1, h.1.2, h.2⟩

theorem length_ne_zero_of_invalid_false {arg : String} (h : invalid_arg arg = false) :
    (arg.length == 0) = false := by
  rw [invalid_arg, Bool.or_eq_false_iff] at h
  exact h.1

end UnixC

namespace UnixC

/-! ### The claims -/

/-- C1: starting from `mkfs`, after every sequence of interleaved
`create_file` (`touch`) and `create_dir` (`mkdir`) calls, the children list
of every directory (the root's sibling chain, or a directory's `sub_dir`
chain — `childrenAt … p` for every path `p`) has names strictly ascending in
byte (`strcmp`) order and unique, so the final listing order equals the
sorted order of the surviving names. -/
theorem claim_C1 (cmds : List Cmd) (p : List String) :
    List.Pairwise (fun a b => str_lt a b = true)
        ((childrenAt (runCmds mkfs cmds).root p).map Container.name)
      ∧ ((childrenAt (runCmds mkfs cmds).root p).map Container.name).Nodup := by
  have hwf : nodeWF (runCmds mkfs cmds).root = true := runCmds_wf mkfs_wf
  have hp := nodeWF_pairwiseAt (p := p) hwf
  exact ⟨hp, hp.imp (fun h => str_lt_ne h)⟩

/-- C3 counterexample: the name `"/"` contains the character `/`, yet
`touch` returns success 1 on it (it is a reserved token, tested by
`non_error_arg` before `invalid_arg` ever runs), contradicting the claim
that both creation calls fail on every name containing `/`. -/
theorem claim_C3_counterexample :
    invalid_arg "/" = true ∧ touch mkfs "/" = (1, mkfs) :=
  ⟨rfl, rfl⟩

/-- C3 amended: for every name that is empty or contains `/`, `mkdir` fails
with the state unchanged on every filesystem, and `touch` fails with the
state unchanged on every well-formed filesystem — except for the exact
string `"/"`, on which `touch` returns success 1 (still adding nothing). -/
theorem claim_C3_amended (fs : Unix) (arg : String)
    (hwf : nodeWF fs.root = true) (hinv : invalid_arg arg = true) :
    mkdir fs arg = (0, fs)
      ∧ (arg ≠ "/" → touch fs arg = (0, fs))
      ∧ (arg = "/" → touch fs arg = (1, fs)) := by
  refine ⟨?_, ?_, ?_⟩
  · simp only [mkdir]
    by_cases h1 : ((name_exists fs arg).isSome || non_error_arg arg) = true
    · rw [if_pos h1]
    · rw [if_neg h1, if_pos hinv]
  · intro hslash
    have hne : non_error_arg arg = false := non_error_of_invalid hinv hslash
    have hex : name_exists fs arg = none := not_exists_of_invalid hwf hinv
    simp only [touch, hex, Option.isSome_none, hne, Bool.or_false,
      Bool.false_eq_true, if_false, hinv, if_true]
  · intro hslash
    subst hslash
    simp only [touch, non_error_arg, ROOT]
    rfl

/-- C3 witness: the concrete invalid name `"a/b"` on the fresh filesystem. -/
theorem claim_C3_witness :
    nodeWF mkfs.root = true ∧ invalid_arg "a/b" = true
      ∧ (mkdir mkfs "a/b" = (0, mkfs)
          ∧ ("a/b" ≠ "/" → touch mkfs "a/b" = (0, mkfs))
          ∧ ("a/b" = "/" → touch mkfs "a/b" = (1, mkfs))) :=
  ⟨rfl, rfl, claim_C3_amended mkfs "a/b" rfl rfl⟩

/-- C4 counterexample: in the filesystem built by `mkfs; mkdir "a"; cd "a";
touch "b"; cd ".."; touch "b"`, the directory `a` has a descendant named
`b`; `rm "a"` succeeds, yet looking `b` up among the current directory's
children still succeeds afterwards (the root's own file `b` survives), so
"lookup of any former descendant's name fails" is false as stated. -/
theorem claim_C4_counterexample :
    find_in_chain (currChildren fs_sibling_clash) "a"
        = some (.mk "a" .U_DIR [.mk "b" .U_FILE []])
      ∧ "b" ∈ subtree_names (.mk "a" .U_DIR [.mk "b" .U_FILE []])
      ∧ (rm fs_sibling_clash "a").1 = 1
      ∧ (find_in_chain (currChildren (rm fs_sibling_clash "a").2) "b").isSome = true := by
  refine ⟨rfl, ?_, rfl, rfl⟩
  decide

/-- C4 amended: `rm` on a `Directory` child of the current directory
succeeds, removes exactly that child — together with its entire subtree,
hence every descendant — from the children list, and a lookup of the removed
directory's own name fails afterwards.  (A lookup of another former
descendant's name can still succeed when a distinct surviving child of the
current directory happens to bear the same name, as the counterexample
shows.) -/
theorem claim_C4_amended (fs : Unix) (n : String) (d c : Container)
    (hwf : nodeWF fs.root = true)
    (hd : getDir fs.root fs.curr_dir = some d)
    (hfind : find_in_chain (currChildren fs) n = some c)
    (_hdir : c.type = .U_DIR) :
    (rm fs n).1 = 1
      ∧ currChildren (rm fs n).2 = delete_from (currChildren fs) n
      ∧ find_in_chain (currChildren (rm fs n).2) n = none := by
  have hcc : currChildren fs = d.sub_dir := by
    simp [currChildren, childrenAt, hd]
  have hdwf : nodeWF d = true := getDir_wf hwf hd
  have hleg : legal_name n = true := wf_find_legal hdwf (by rw [← hcc]; exact hfind)
  obtain ⟨hinv, hne⟩ := legal_name_breakdown hleg
  have hex : name_exists fs n = some c := hfind
  have hrm : rm fs n =
      (1, { fs with root := updateAt fs.root fs.curr_dir (fun cs => delete_from cs n) }) := by
    simp [rm, hex, hinv, hne]
  refine ⟨by rw [hrm], ?_, ?_⟩
  · rw [hrm]
    simp only [currChildren]
    exact childrenAt_updateAt hd
  · rw [hrm]
    simp only [currChildren]
    rw [childrenAt_updateAt hd]
    rw [← currChildren, hcc]
    exact sorted_names_delete (nodeWF_parts.mp hdwf).1

/-- C4 witness: removing the directory `a` from the filesystem
`mkfs; mkdir "a"`. -/
theorem claim_C4_witness :
    nodeWF (mkdir mkfs "a").2.root = true
      ∧ getDir (mkdir mkfs "a").2.root (mkdir mkfs "a").2.curr_dir
          = some (.mk "/" .U_ROOT [.mk "a" .U_DIR []])
      ∧ find_in_chain (currChildren (mkdir mkfs "a").2) "a" = some (.mk "a" .U_DIR [])
      ∧ (Container.mk "a" .U_DIR []).type = .U_DIR
      ∧ ((rm (mkdir mkfs "a").2 "a").1 = 1
          ∧ currChildren (rm (mkdir mkfs "a").2 "a").2
              = delete_from (currChildren (mkdir mkfs "a").2) "a"
          ∧ find_in_chain (currChildren (rm (mkdir mkfs "a").2 "a").2) "a" = none) :=
  ⟨rfl, rfl, rfl, rfl, claim_C4_amended (mkdir mkfs "a").2 "a" _ _ rfl rfl rfl rfl⟩

/-- C5: on every filesystem, for every reserved token (`.`, `..`, `/`),
`touch` returns success 1 and `mkdir` returns failure 0, and neither call
changes the filesystem (no node is added). -/
theorem claim_C5 (fs : Unix) (arg : String)
    (h : arg = "." ∨ arg = ".." ∨ arg = "/") :
    touch fs arg = (1, fs) ∧ mkdir fs arg = (0, fs) := by
  have hne : non_error_arg arg = true := by
    rcases h with h | h | h <;> simp [non_error_arg, CD, PARENT, ROOT, h]
  constructor
  · simp [touch, hne]
  · simp [mkdir, hne]

/-- C5 witness: the reserved token `.` on the fresh filesystem. -/
theorem claim_C5_witness :
    (("." : String) = "." ∨ ("." : String) = ".." ∨ ("." : String) = "/")
      ∧ (touch mkfs "." = (1, mkfs) ∧ mkdir mkfs "." = (0, mkfs)) :=
  ⟨Or.inl rfl, claim_C5 mkfs "." (Or.inl rfl)⟩

/-- C6: creating a file twice with the same legal name is idempotent — the
second `touch` returns success 1 and leaves the filesystem exactly as the
first call left it (no duplicate node). -/
theorem claim_C6 (fs : Unix) (n : String) (d : Container)
    (hl : legal_name n = true)
    (hd : getDir fs.root fs.curr_dir = some d) :
    touch (touch fs n).2 n = (1, (touch fs n).2) := by
  obtain ⟨hinv, hne⟩ := legal_name_breakdown hl
  cases hex : (name_exists fs n).isSome with
  | true =>
    have h1 : touch fs n = (1, fs) := by
      simp [touch, hex, hne]
    rw [h1]
    simp [touch, hex, hne]
  | false =>
    have h1 : touch fs n =
        (1, { fs with root := updateAt fs.root fs.curr_dir (insert_sorted n .U_FILE) }) := by
      simp [touch, hex, hne, hinv, add_container_to_filesystem]
    rw [h1]
    have hex2 : (name_exists
        { fs with root := updateAt fs.root fs.curr_dir (insert_sorted n .U_FILE) } n).isSome
          = true := by
      simp only [name_exists, currChildren]
      rw [childrenAt_updateAt hd]
      exact find_insert_sorted_self n .U_FILE _
    simp [touch, hex2]

/-- C6 witness: the legal name `"a"` on the fresh filesystem. -/
theorem claim_C6_witness :
    legal_name "a" = true
      ∧ getDir mkfs.root mkfs.curr_dir = some (.mk "/" .U_ROOT [])
      ∧ touch (touch mkfs "a").2 "a" = (1, (touch mkfs "a").2) :=
  ⟨rfl, rfl, claim_C6 mkfs "a" (.mk "/" .U_ROOT []) rfl rfl⟩

/-- C7: when the current directory has a `Directory` child named `n`,
`change_dir(n)` succeeds and `change_dir("..")` afterwards returns the
filesystem to exactly its previous state — the cursor is restored to the
node that was the current directory before the first call. -/
theorem claim_C7 (fs : Unix) (n : String) (d c : Container)
    (hwf : nodeWF fs.root = true)
    (hd : getDir fs.root fs.curr_dir = some d)
    (hfind : find_in_chain (currChildren fs) n = some c)
    (hdir : c.type = .U_DIR) :
    (cd fs n).1 = 1 ∧ cd (cd fs n).2 ".." = (1, fs) := by
  have hcc : currChildren fs = d.sub_dir := by
    simp [currChildren, childrenAt, hd]
  have hdwf : nodeWF d = true := getDir_wf hwf hd
  have hfind' : find_in_chain d.sub_dir n = some c := by rw [← hcc]; exact hfind
  have hleg : legal_name n = true := wf_find_legal hdwf hfind'
  obtain ⟨hinv, hne⟩ := legal_name_breakdown hleg
  obtain ⟨hn1, hn2, hn3⟩ := non_error_false_parts hne
  have hlen : (n.length == 0) = false := length_ne_zero_of_invalid_false hinv
  have hfile : (c.type = Ty.U_FILE) = False := by
    rw [hdir]
    simp
  have hcd1 : cd fs n = (1, { fs with curr_dir := fs.curr_dir ++ [n] }) := by
    simp only [cd, hlen, hn1, hn2, hn3, name_exists, hfind, hfile,
      decide_False, Bool.or_false, Bool.false_eq_true, if_false, if_true]
  refine ⟨by rw [hcd1], ?_⟩
  rw [hcd1]
  have hup : getDir fs.root (fs.curr_dir ++ [n]) = some c := getDir_append hd hfind'
  simp only [cd, hup]
  have hroot' : c.type ≠ Ty.U_ROOT := by
    rw [hdir]
    exact fun h => Ty.noConfusion h
  rw [if_neg (by decide : ¬((decide ((".." : String) = CD) || (".." : String).length == 0) = true)),
    if_pos (show (".." : String) = PARENT from rfl), if_pos hroot', List.dropLast_concat]

/-- C7 witness: entering and leaving the directory `a` of `mkfs; mkdir "a"`. -/
theorem claim_C7_witness :
    nodeWF (mkdir mkfs "a").2.root = true
      ∧ getDir (mkdir mkfs "a").2.root (mkdir mkfs "a").2.curr_dir
          = some (.mk "/" .U_ROOT [.mk "a" .U_DIR []])
      ∧ find_in_chain (currChildren (mkdir mkfs "a").2) "a" = some (.mk "a" .U_DIR [])
      ∧ (Container.mk "a" .U_DIR []).type = .U_DIR
      ∧ ((cd (mkdir mkfs "a").2 "a").1 = 1
          ∧ cd (cd (mkdir mkfs "a").2 "a").2 ".." = (1, (mkdir mkfs "a").2)) :=
  ⟨rfl, rfl, rfl, rfl, claim_C7 (mkdir mkfs "a").2 "a" _ _ rfl rfl rfl rfl⟩

/-- C8: `pwd` right after `mkfs` prints exactly the line `/`; after
`mkdir "a"; cd "a"; mkdir "b"; cd "b"` it prints exactly the line `/a/b`
(intermediate directories as `name/` without a newline, the cursor's node as
`name` followed by the newline). -/
theorem claim_C8 :
    pwd mkfs = "/\n" ∧ pwd fs_slash_a_b = "/a/b\n" :=
  ⟨rfl, rfl⟩

/-- C9: `touch`, `mkdir`, `cd` and `ls` do check their arguments against
NULL first and return failure 0 without reading anything; but `rm` runs its
`name_exists` lookup BEFORE its NULL checks (unix.c:249 vs 251-252), so
`rm(NULL, "x")` dereferences the null filesystem handle (undefined
behaviour, `.error ()`), and `rm(fs, NULL)` reaches
`strcmp(name, NULL)` whenever the current directory is non-empty.  The
claim that all five calls return 0 without reading state is therefore wrong
for `rm`. -/
theorem claim_C9_null_arguments :
    (∀ arg : Option String, touch_c none arg = .ok (0, none))
      ∧ (∀ arg : Option String, mkdir_c none arg = .ok (0, none))
      ∧ (∀ arg : Option String, cd_c none arg = .ok (0, none))
      ∧ (∀ arg : Option String, ls_c none arg = .ok (0, none))
      ∧ (∀ fs : Unix, touch_c (some fs) none = .ok (0, some fs))
      ∧ (∀ fs : Unix, mkdir_c (some fs) none = .ok (0, some fs))
      ∧ (∀ fs : Unix, cd_c (some fs) none = .ok (0, some fs))
      ∧ (∀ fs : Unix, ls_c (some fs) none = .ok (0, some fs))
      ∧ rm_c none (some "x") = .error ()
      ∧ rm_c (some (mkdir mkfs "a").2) none = .error () := by
  refine ⟨?_, ?_, ?_, ?_, ?_, ?_, ?_, ?_, rfl, rfl⟩ <;>
    intro x <;> first | rfl | (cases x <;> rfl)

/-- C10: when the current directory already has a child named `n` — of any
kind, in particular a `Directory` — `touch n` returns success 1 and changes
nothing: the existence check of `name_exists` matches by name only. -/
theorem claim_C10 (fs : Unix) (n : String) (c : Container)
    (h : find_in_chain (currChildren fs) n = some c) :
    touch fs n = (1, fs) := by
  have hex : (name_exists fs n).isSome = true := by
    rw [name_exists, h]
    rfl
  simp [touch, hex]

/-- C10 witness: `touch "d"` where `d` is an existing `Directory` child. -/
theorem claim_C10_witness :
    find_in_chain (currChildren (mkdir mkfs "d").2) "d" = some (.mk "d" .U_DIR [])
      ∧ touch (mkdir mkfs "d").2 "d" = (1, (mkdir mkfs "d").2) :=
  ⟨rfl, claim_C10 (mkdir mkfs "d").2 "d" (.mk "d" .U_DIR []) rfl⟩

/-- C2: the spec promises that after any recoverable failure — in particular
an allocation failure during a later creation — the filesystem is exactly
unchanged and internally consistent.  On the heap embedding of
`add_container_to_filesystem`, inserting `"a"` into a root directory that
already holds the file `b` with the node allocation succeeding and the name
allocation failing returns 0 (recoverable), but the heap is NOT unchanged:
the surviving node `b` now carries `prev = 2`, the address of the freed new
node (a dangling pointer), because unix.c:401-402 stores into `curr->prev`
before the name `malloc` and the failure path unix.c:410-416 never undoes
it. -/
theorem claim_C2_alloc_failure :
    (add_container_heap heap_fs_b 0 "a" .U_FILE true false).1 = 0
      ∧ (add_container_heap heap_fs_b 0 "a" .U_FILE true false).2 ≠ heap_fs_b
      ∧ hget (add_container_heap heap_fs_b 0 "a" .U_FILE true false).2 1
          = some { hname := some "b", hparent := some 0, hnext := none,
                   hprev := some 2, htype := .U_FILE, hsub := none }
      ∧ hget (add_container_heap heap_fs_b 0 "a" .U_FILE true false).2 2 = none := by
  refine ⟨rfl, ?_, rfl, rfl⟩
  decide

end UnixC

